import Mathlib

/-!
Verification of the Holdings Extraction Engine of `scripts/extract_all_funds.py`.

The Python code is shallowly embedded over `List Char` (Python `str`) and `ℚ`
(Python `float`, idealised as exact rationals; every comparison and arithmetic
operation the engine performs is exact on the decimal inputs that occur here).
Cells of a spreadsheet row are the tagged union `CellValue` (text, number,
empty/NaN); a row is a `List CellValue`, a dataframe a list of rows.

Conventions:
* `pyIsSpace` models the ASCII part of Python's `str.split` / `str.strip`
  whitespace set (the engine only ever meets ASCII whitespace).
* `Char.toLower` models `str.lower` (agrees on ASCII, which is all the
  engine's keywords use).
* `pyFloat` models `float(str)` on decimal literals with optional sign,
  fraction and exponent; the exotic forms (`inf`, `nan`, `_` separators)
  are irrelevant to the engine and rejected by the model.
* `round2` models `round(x, 2)` (round-half-to-even on exact rationals).
-/

/-- ASCII whitespace as recognised by Python's `str.split`/`str.strip`. -/
def pyIsSpace (c : Char) : Bool :=
  c = ' ' || c = '\t' || c = '\n' || c = '\r' || c = '\x0b' || c = '\x0c'

/-- ASCII uppercase letter, the `[A-Z]` class of the annotation regex. -/
def isUpperAZ (c : Char) : Bool := 'A' ≤ c && c ≤ 'Z'

/-- ASCII digit. -/
def isDigitC (c : Char) : Bool := '0' ≤ c && c ≤ '9'

/-- `str.lower`, modelled with `Char.toLower` (ASCII-faithful). -/
def toLowerL (l : List Char) : List Char := l.map Char.toLower

/-- Characters of a Lean string literal. -/
def strL (s : String) : List Char := s.data

/-- Drop a literal pattern from the front of a list; `none` when it is not
a prefix. -/
def dropPrefixL : List Char → List Char → Option (List Char)
  | [], l => some l
  | _ :: _, [] => none
  | a :: as, b :: bs => if a = b then dropPrefixL as bs else none

/-- Boolean prefix test. -/
def isPrefixL (pat l : List Char) : Bool := (dropPrefixL pat l).isSome

/-- Python's `pat in s` substring test. -/
def containsSub : List Char → List Char → Bool
  | [], pat => pat.isEmpty
  | l@(_ :: t), pat => isPrefixL pat l || containsSub t pat

/-- Python `str.strip()`: remove leading and trailing whitespace. -/
def pyStrip (l : List Char) : List Char :=
  ((l.dropWhile pyIsSpace).reverse.dropWhile pyIsSpace).reverse

/-- Helper of `words`: split into maximal whitespace-free words, returning
the (reversed-to-front) current word and the completed words. -/
def wordsCore : List Char → List Char × List (List Char)
  | [] => ([], [])
  | c :: rest =>
    let p := wordsCore rest
    if pyIsSpace c then ([], if p.1.isEmpty then p.2 else p.1 :: p.2)
    else (c :: p.1, p.2)

/-- Python `str.split()` with no argument: maximal runs of non-whitespace. -/
def words (l : List Char) : List (List Char) :=
  let p := wordsCore l
  if p.1.isEmpty then p.2 else p.1 :: p.2

/-- Python `' '.join(ws)`: interleave the parts with single spaces. -/
def joinWords : List (List Char) → List Char
  | [] => []
  | [w] => w
  | w :: x :: ws => w ++ ' ' :: joinWords (x :: ws)

/-- Python `' '.join(s.split())`: collapse internal whitespace runs to single
spaces and drop edge whitespace. -/
def collapse (l : List Char) : List Char := joinWords (words l)

/-- `re.sub(r'\s+[A-Z]\*\*$', '', name)`: drop a trailing footnote annotation
such as `" A**"` together with the whitespace run before it. -/
def annotStrip (l : List Char) : List Char :=
  match l.reverse with
  | '*' :: '*' :: c :: rest =>
    if isUpperAZ c && (match rest with | r :: _ => pyIsSpace r | [] => false) then
      (rest.dropWhile pyIsSpace).reverse
    else l
  | _ => l

/-- One match attempt of `\s*\([^)]+\)\s*` anchored at the current position:
if the pattern matches a prefix, return the remainder after the match. -/
def parenMatch (l : List Char) : Option (List Char) :=
  match l.dropWhile pyIsSpace with
  | '(' :: rest =>
    let content := rest.takeWhile (fun c => c ≠ ')')
    match rest.dropWhile (fun c => c ≠ ')') with
    | ')' :: tail => if content.isEmpty then none else some (tail.dropWhile pyIsSpace)
    | _ => none
  | _ => none

/-- Fueled scan for `re.sub(r'\s*\([^)]+\)\s*', ' ', name)`: each match is
replaced by a single space and scanning resumes after the replacement. -/
def stripParensFuel : Nat → List Char → List Char
  | 0, l => l
  | _ + 1, [] => []
  | fuel + 1, c :: rest =>
    match parenMatch (c :: rest) with
    | some tail => ' ' :: stripParensFuel fuel tail
    | none => c :: stripParensFuel fuel rest

/-- `re.sub(r'\s*\([^)]+\)\s*', ' ', name)`: remove parenthetical segments,
replacing each (with its surrounding whitespace) by one space. -/
def stripParens (l : List Char) : List Char := stripParensFuel l.length l

/-- Length of the leading run satisfying `p`. -/
def countWhile (p : Char → Bool) (l : List Char) : Nat := (l.takeWhile p).length

/-- Reversed lowercase view used by the suffix rules (`$`-anchored,
`re.IGNORECASE` matching). -/
def revLower (l : List Char) : List Char := (toLowerL l).reverse

/-- Matched length of `\s+Limited$` on the reversed lowercase view. -/
def matchLimited (r : List Char) : Option Nat :=
  match dropPrefixL (strL "detimil") r with
  | none => none
  | some r1 =>
    let k := countWhile pyIsSpace r1
    if k = 0 then none else some (7 + k)

/-- Matched length of `\s+Pvt\.?\s*Ltd\.?$` on the reversed lowercase view. -/
def matchPvtLtd (r : List Char) : Option Nat :=
  let s1 : Nat × List Char := match r with | '.' :: t => (1, t) | _ => (0, r)
  match dropPrefixL (strL "dtl") s1.2 with
  | none => none
  | some r2 =>
    let k1 := countWhile pyIsSpace r2
    let r3 := r2.drop k1
    let s2 : Nat × List Char := match r3 with | '.' :: t => (1, t) | _ => (0, r3)
    match dropPrefixL (strL "tvp") s2.2 with
    | none => none
    | some r5 =>
      let k2 := countWhile pyIsSpace r5
      if k2 = 0 then none else some (s1.1 + 3 + k1 + s2.1 + 3 + k2)

/-- Matched length of `\s+Private\s+Limited$` on the reversed lowercase view. -/
def matchPrivateLimited (r : List Char) : Option Nat :=
  match dropPrefixL (strL "detimil") r with
  | none => none
  | some r1 =>
    let k1 := countWhile pyIsSpace r1
    if k1 = 0 then none else
    match dropPrefixL (strL "etavirp") (r1.drop k1) with
    | none => none
    | some r2 =>
      let k2 := countWhile pyIsSpace r2
      if k2 = 0 then none else some (7 + k1 + 7 + k2)

/-- Matched length of `\s+Ltd$` on the reversed lowercase view. -/
def matchLtd (r : List Char) : Option Nat :=
  match dropPrefixL (strL "dtl") r with
  | none => none
  | some r1 =>
    let k := countWhile pyIsSpace r1
    if k = 0 then none else some (3 + k)

/-- Matched length of `\s+Ltd\.$` on the reversed lowercase view. -/
def matchLtdDot (r : List Char) : Option Nat :=
  match dropPrefixL (strL ".dtl") r with
  | none => none
  | some r1 =>
    let k := countWhile pyIsSpace r1
    if k = 0 then none else some (4 + k)

/-- Apply one `$`-anchored suffix rule: drop the matched length from the end
and append the literal replacement `" Ltd."`. -/
def applySuffixRule (m : List Char → Option Nat) (l : List Char) : List Char :=
  match m (revLower l) with
  | none => l
  | some n => l.take (l.length - n) ++ strL " Ltd."

/-- The ordered replacement list of `normalize_company_name` (lines 52-61). -/
def applyRules (l : List Char) : List Char :=
  applySuffixRule matchLtdDot
    (applySuffixRule matchLtd
      (applySuffixRule matchPrivateLimited
        (applySuffixRule matchPvtLtd
          (applySuffixRule matchLimited l))))

/-- `normalize_company_name` (lines 34-66): `None` for an empty input, else
collapse whitespace, strip a trailing annotation, remove parentheticals,
canonicalise legal-entity suffixes and collapse whitespace again. -/
def normalize_company_name (name : List Char) : Option (List Char) :=
  if name.isEmpty then none
  else
    some (collapse (applyRules (stripParens (annotStrip (collapse (pyStrip name))))))

/-- Numeric value of a digit string (most significant first). -/
def natOfDigits (l : List Char) : Nat :=
  l.foldl (fun a c => a * 10 + (c.toNat - '0'.toNat)) 0

/-- Rational multiplication, written through `mkRat` so that it evaluates
inside the kernel; `qMul_eq_mul` proves it is `·*·` on `ℚ`. -/
def qMul (a b : ℚ) : ℚ := mkRat (a.num * b.num) (a.den * b.den)

/-- Rational addition, written through `mkRat` so that it evaluates inside
the kernel; `qAdd_eq_add` proves it is `·+·` on `ℚ`. -/
def qAdd (a b : ℚ) : ℚ := mkRat (a.num * b.den + b.num * a.den) (a.den * b.den)

/-- Rational floor, written through integer division so that it evaluates
inside the kernel; `qFloor_eq_floor` proves it is `⌊·⌋` on `ℚ`. -/
def qFloor (q : ℚ) : ℤ := q.num / q.den

/-- Exponent part of `float(str)`: `e`/`E`, optional sign, digits, nothing
after; scales the mantissa `mantNum / mantDen` by the requested power of 10. -/
def pyExp (mantNum : Int) (mantDen : Nat) (r : List Char) : Option ℚ :=
  let s : Bool × List Char := match r with
    | '+' :: t => (false, t)
    | '-' :: t => (true, t)
    | _ => (false, r)
  let ed := s.2.takeWhile isDigitC
  if ed.isEmpty || !(s.2.dropWhile isDigitC).isEmpty then none
  else if s.1 then some (mkRat mantNum (mantDen * 10 ^ natOfDigits ed))
  else some (mkRat (mantNum * ((10 ^ natOfDigits ed : Nat) : Int)) mantDen)

/-- `float(str)` on decimal literals: optional surrounding whitespace, optional
sign, digits with an optional fractional part, optional exponent; anything
else (in particular a trailing `%`) fails. The value
`±(ip.fp) × 10^e` is built exactly as `mkRat` of integers. -/
def pyFloat (l : List Char) : Option ℚ :=
  let t := pyStrip l
  let s : Int × List Char := match t with
    | '+' :: r => (1, r)
    | '-' :: r => (-1, r)
    | _ => (1, t)
  let ip := s.2.takeWhile isDigitC
  let r1 := s.2.dropWhile isDigitC
  let fr : List Char × List Char := match r1 with
    | '.' :: r => (r.takeWhile isDigitC, r.dropWhile isDigitC)
    | _ => ([], r1)
  if ip.isEmpty && fr.1.isEmpty then none
  else
    let mantNum : Int := s.1 * ((natOfDigits ip * 10 ^ fr.1.length + natOfDigits fr.1 : Nat) : Int)
    let mantDen : Nat := 10 ^ fr.1.length
    match fr.2 with
    | [] => some (mkRat mantNum mantDen)
    | 'e' :: r3 => pyExp mantNum mantDen r3
    | 'E' :: r3 => pyExp mantNum mantDen r3
    | _ => none

/-- `round(x, 2)`: round to 2 decimal places, ties to even (Python's rounding
on the exact rational value). With `x = q*100` and `n = ⌊x⌋`, the integer
`2*x.num - (2*n+1)*x.den` has the sign of `(x - n) - 1/2`, so the three
branches are fraction below, above, and exactly at one half. -/
def round2 (q : ℚ) : ℚ :=
  let x : ℚ := qMul q 100
  let n : ℤ := qFloor x
  let t : ℤ := 2 * x.num - (2 * n + 1) * (x.den : ℤ)
  if t < 0 then mkRat n 100
  else if 0 < t then mkRat (n + 1) 100
  else if n % 2 = 0 then mkRat n 100 else mkRat (n + 1) 100

/-- A spreadsheet cell: text, a number, or empty (`NaN`/`None`, i.e. anything
`pd.isna` accepts). -/
inductive CellValue
  | Text : List Char → CellValue
  | Num : ℚ → CellValue
  | Empty : CellValue
deriving DecidableEq

/-- A row of the grid; rows may be ragged. -/
abbrev Row := List CellValue

/-- `str(cell)` for a numeric cell. Python renders the float in decimal while
this model renders the rational; both renderings consist of digits and the
characters `-./e` only, so they are interchangeable for every keyword and
signal search the engine performs. -/
def numStr (q : ℚ) : List Char := (toString q).data

/-- `str(cell)` for a non-missing cell. -/
def cellText : CellValue → List Char
  | CellValue.Text s => s
  | CellValue.Num q => numStr q
  | CellValue.Empty => []

/-- `row.iloc[i] if i < len(row) else None`, with `None` and `NaN` both
modelled as `Empty`. -/
def getCell (row : Row) (i : Nat) : CellValue := row.getD i CellValue.Empty

/-- `' '.join([str(cell) for cell in row if pd.notna(cell)]).lower()`. -/
def rowStr (row : Row) : List Char :=
  toLowerL (List.intercalate (strL " ")
    (row.filterMap (fun c => match c with
      | CellValue.Empty => none
      | c => some (cellText c))))

/-- Header-row test of lines 106-111: an instrument signal and a percent
signal in the row's concatenated text. -/
def rowHasSignals (row : Row) : Bool :=
  let rs := rowStr row
  (containsSub rs (strL "name of the instrument") || containsSub rs (strL "instrument")) &&
    (containsSub rs (strL "% to net") || containsSub rs (strL "% to nav") ||
      containsSub rs (strL "% of nav"))

/-- The scan of lines 104-113: index and content of the topmost row whose
text carries both header signals. -/
def findHeaderRowAux : List Row → Option (Nat × Row)
  | [] => none
  | r :: rest =>
    if rowHasSignals r then some (0, r)
    else (findHeaderRowAux rest).map (fun p => (p.1 + 1, p.2))

/-- The column scan of lines 126-132: walk the header row's cells, recording
the last cell containing `"name of the instrument"` as the company column and
(`elif`) the last cell containing `"% to net"`/`"% to nav"` as the percent
column. -/
def findColsAux : Nat → Option Nat × Option Nat → Row → Option Nat × Option Nat
  | _, acc, [] => acc
  | i, acc, cell :: rest =>
    let acc2 :=
      if cell = CellValue.Empty then acc
      else
        let cs := toLowerL (pyStrip (cellText cell))
        if containsSub cs (strL "name of the instrument") then (some i, acc.2)
        else if containsSub cs (strL "% to net") || containsSub cs (strL "% to nav") then
          (acc.1, some i)
        else acc
    findColsAux (i + 1) acc2 rest

/-- Lines 104-136: header row index plus company and percent column indices;
`none` when no row matches or either column is missing. -/
def find_header (df : List Row) : Option (Nat × Nat × Nat) :=
  match findHeaderRowAux df with
  | none => none
  | some (h, hrow) =>
    match findColsAux 0 (none, none) hrow with
    | (some c, some p) => some (h, c, p)
    | _ => none

/-- One sampling step of lines 144-155: the percent cell's value via
`float()`, kept only when strictly positive. A textual cell is parsed as is
(no `%` stripping happens in the sampler). -/
def sampleOfRow (pcol : Nat) (row : Row) : Option ℚ :=
  match getCell row pcol with
  | CellValue.Empty => none
  | CellValue.Num q => if 0 < q then some q else none
  | CellValue.Text s =>
    match pyFloat s with
    | some v => if 0 < v then some v else none
    | none => none

/-- The sampling loop of lines 143-155: collect positive numeric samples,
stopping as soon as 10 have been gathered. -/
def collectSamples (pcol : Nat) : List Row → List ℚ → List ℚ
  | [], acc => acc.reverse
  | r :: rest, acc =>
    match sampleOfRow pcol r with
    | none => collectSamples pcol rest acc
    | some v =>
      if 10 ≤ (v :: acc).length then (v :: acc).reverse
      else collectSamples pcol rest (v :: acc)

/-- Lines 143-158: sample the 29 rows after the header
(`range(h+1, min(h+30, len(df)))`) and judge the column fractional exactly
when at least one sample was collected and every sample is `< 1`. -/
def detectFormat (rowsAfterHeader : List Row) (pcol : Nat) : Bool :=
  let samples := collectSamples pcol (rowsAfterHeader.take 29) []
  if samples.isEmpty then false else samples.all (fun v => decide (v < 1))

/-- The noise blocklist of lines 196-198. -/
def skipWords : List (List Char) :=
  [strL "equity", strL "listed", strL "awaiting", strL "unlisted", strL "total",
   strL "fund", strL "benchmark", strL "index", strL "plan", strL "regular",
   strL "direct", strL "growth", strL "others", strL "cash", strL "debt",
   strL "portfolio", strL "grand"]

/-- `any(s in company.lower() for s in skip_words)`. -/
def hasSkipWord (lc : List Char) : Bool := skipWords.any (fun w => containsSub lc w)

/-- Lines 203-206: parse the percent cell; a textual cell first has every `%`
removed and is stripped. -/
def parsePercentCell : CellValue → Option ℚ
  | CellValue.Num q => some q
  | CellValue.Text s => pyFloat (pyStrip (s.filter (fun c => c ≠ '%')))
  | CellValue.Empty => none

/-- Parsed percent value after the format decision (lines 203-210). -/
def scaledPercent (pcol : Nat) (conv : Bool) (row : Row) : Option ℚ :=
  (parsePercentCell (getCell row pcol)).map (fun w => if conv then qMul w 100 else w)

/-- The range filter of line 215: `0.01 < pct_val < 50`. -/
def rangeOk (v : ℚ) : Bool := decide (mkRat 1 100 < v ∧ v < 50)

/-- One extracted holding (lines 236-241); `shares` and `value` are always
absent. -/
structure Holding where
  company : List Char
  percentOfNAV : ℚ
  shares : Option ℚ
  value : Option ℚ
deriving DecidableEq

/-- Lines 227-231: walk the list, add the percentage into the first holding
whose lowercased company equals the key, round to 2 decimals, stop. -/
def mergeInto : List Holding → List Char → ℚ → List Holding
  | [], _, _ => []
  | h :: t, nl, v =>
    if toLowerL h.company = nl then
      { h with percentOfNAV := round2 (qAdd h.percentOfNAV v) } :: t
    else h :: mergeInto t nl v

/-- The mutable state of the extraction loop (lines 101, 162-163). -/
structure ExtState where
  holdings : List Holding
  seen : List (List Char)
  equity : Bool
deriving DecidableEq

/-- Record extraction for one row (lines 183-241): missing cells, short or
noisy company text, unparsable or out-of-range percents and unusable names
skip the row; otherwise merge into an existing holding or append a new one. -/
def processRow (ccol pcol : Nat) (conv : Bool) (s : ExtState) (row : Row) : ExtState :=
  if getCell row ccol = CellValue.Empty then s
  else if getCell row pcol = CellValue.Empty then s
  else if (pyStrip (cellText (getCell row ccol))).length < 3 then s
  else if hasSkipWord (toLowerL (pyStrip (cellText (getCell row ccol)))) then s
  else
    match scaledPercent pcol conv row with
    | none => s
    | some v =>
      if rangeOk v = false then s
      else
        match normalize_company_name (pyStrip (cellText (getCell row ccol))) with
        | none => s
        | some nm =>
          if nm.isEmpty then s
          else if toLowerL nm ∈ s.seen then
            { s with holdings := mergeInto s.holdings (toLowerL nm) v }
          else ⟨s.holdings ++ [⟨nm, round2 v, none, none⟩], toLowerL nm :: s.seen, s.equity⟩

/-- The row loop of lines 165-245. A row whose text contains `"equity"` sets
the section flag and is skipped, in every state; otherwise, inside the
section, a row containing a terminal keyword stops the scan when it contains
`"total"` and a holding exists; otherwise rows before the section are
skipped and section rows are tried for record extraction. -/
def extractLoop (ccol pcol : Nat) (conv : Bool) : List Row → ExtState → ExtState
  | [], s => s
  | row :: rest, s =>
    let rs := rowStr row
    if containsSub rs (strL "equity & equity related") || containsSub rs (strL "equity") then
      extractLoop ccol pcol conv rest { s with equity := true }
    else if s.equity &&
        (containsSub rs (strL "debt") || containsSub rs (strL "total") ||
          containsSub rs (strL "net assets") || containsSub rs (strL "grand total")) &&
        (containsSub rs (strL "total") && !s.holdings.isEmpty) then
      s
    else if !s.equity then extractLoop ccol pcol conv rest s
    else extractLoop ccol pcol conv rest (processRow ccol pcol conv s row)

/-- `find_holdings_in_dataframe` (lines 99-247): locate the header, detect the
percent format on the 29 rows after it, run the extraction loop over all rows
after it, and succeed only with at least 5 holdings. -/
def find_holdings_in_dataframe (df : List Row) : Option (List Holding) :=
  match find_header df with
  | none => none
  | some (h, ccol, pcol) =>
    if 5 ≤ (extractLoop ccol pcol (detectFormat (df.drop (h + 1)) pcol) (df.drop (h + 1))
        ⟨[], [], false⟩).holdings.length then
      some (extractLoop ccol pcol (detectFormat (df.drop (h + 1)) pcol) (df.drop (h + 1))
        ⟨[], [], false⟩).holdings
    else none

/-- The sheet loop of `process_excel_file` (lines 269-286): skip empty sheets,
keep the first sheet whose extraction yields at least 5 holdings. -/
def firstHoldings : List (List Row) → Option (List Holding)
  | [] => none
  | df :: rest =>
    if df.isEmpty then firstHoldings rest
    else
      match find_holdings_in_dataframe df with
      | some hs => if 5 ≤ hs.length then some hs else firstHoldings rest
      | none => firstHoldings rest

/-- Stable insertion for the descending sort: the inserted element passes
the strictly-greater keys and stops in front of the first greater-or-equal
key, so (inserting in reverse input order) equal keys keep input order. -/
def insertDesc (h : Holding) : List Holding → List Holding
  | [] => [h]
  | x :: xs => if x.percentOfNAV ≤ h.percentOfNAV then h :: x :: xs else x :: insertDesc h xs

/-- `holdings.sort(key=lambda x: x["percentOfNAV"], reverse=True)`: Python's
sort is stable; a stable descending sort is modelled by insertion. -/
def sortDesc : List Holding → List Holding
  | [] => []
  | x :: xs => insertDesc x (sortDesc xs)

/-- The persisted snapshot of lines 296-303; `extractedAt` is the
externally supplied timestamp. -/
structure FundSnapshot where
  fundName : List Char
  month : List Char
  year : Nat
  extractedAt : List Char
  holdingsCount : Nat
  holdings : List Holding
deriving DecidableEq

/-- `process_excel_file` (lines 250-322) after the filename metadata has been
resolved externally: try the sheets in order, sort the accepted holdings
descending and assemble the snapshot with `holdingsCount = len(holdings)`. -/
def process_excel_file (fundName month : List Char) (year : Nat) (extractedAt : List Char)
    (sheets : List (List Row)) : Option FundSnapshot :=
  match firstHoldings sheets with
  | none => none
  | some hs =>
    let sorted := sortDesc hs
    some ⟨fundName, month, year, extractedAt, sorted.length, sorted⟩

/-- Modelled from the claim's words (C3): the state machine as the claim
states it — the banner check fires only before the equity section, and inside
the section the terminal check fires first. -/
def extractLoopClaimed (ccol pcol : Nat) (conv : Bool) : List Row → ExtState → ExtState
  | [], s => s
  | row :: rest, s =>
    let rs := rowStr row
    if !s.equity then
      if containsSub rs (strL "equity & equity related") || containsSub rs (strL "equity") then
        extractLoopClaimed ccol pcol conv rest { s with equity := true }
      else extractLoopClaimed ccol pcol conv rest s
    else if (containsSub rs (strL "debt") || containsSub rs (strL "total") ||
          containsSub rs (strL "net assets") || containsSub rs (strL "grand total")) &&
        (containsSub rs (strL "total") && !s.holdings.isEmpty) then
      s
    else extractLoopClaimed ccol pcol conv rest (processRow ccol pcol conv s row)

/-- Modelled from the claim's words (C3): `find_holdings_in_dataframe` with
the claim's state machine in place of the code's row loop. -/
def find_holdings_claimed (df : List Row) : Option (List Holding) :=
  match find_header df with
  | none => none
  | some (h, ccol, pcol) =>
    if 5 ≤ (extractLoopClaimed ccol pcol (detectFormat (df.drop (h + 1)) pcol) (df.drop (h + 1))
        ⟨[], [], false⟩).holdings.length then
      some (extractLoopClaimed ccol pcol (detectFormat (df.drop (h + 1)) pcol) (df.drop (h + 1))
        ⟨[], [], false⟩).holdings
    else none

/-- Modelled from the claim's words (C2): strip one trailing literal `%` from
a textual cell before parsing it. -/
def sampleOfRowSpec (pcol : Nat) (row : Row) : Option ℚ :=
  match getCell row pcol with
  | CellValue.Empty => none
  | CellValue.Num q => if 0 < q then some q else none
  | CellValue.Text s =>
    match pyFloat (if s.getLast? = some '%' then s.dropLast else s) with
    | some v => if 0 < v then some v else none
    | none => none

/-- Modelled from the claim's words (C2): the claimed sampler loop. -/
def collectSamplesSpec (pcol : Nat) : List Row → List ℚ → List ℚ
  | [], acc => acc.reverse
  | r :: rest, acc =>
    match sampleOfRowSpec pcol r with
    | none => collectSamplesSpec pcol rest acc
    | some v =>
      if 10 ≤ (v :: acc).length then (v :: acc).reverse
      else collectSamplesSpec pcol rest (v :: acc)

/-- Modelled from the claim's words (C2): a 30-row window and `%`-stripping
sampling, fractional exactly when some samples were collected and all are
`< 1`. -/
def detectFormatSpec (rowsAfterHeader : List Row) (pcol : Nat) : Bool :=
  let samples := collectSamplesSpec pcol (rowsAfterHeader.take 30) []
  if samples.isEmpty then false else samples.all (fun v => decide (v < 1))

/-- A header row carrying both column signals in their narrow form. -/
def hdrRow : Row :=
  [CellValue.Text (strL "Name of the Instrument"), CellValue.Text (strL "% to NAV")]

/-- The equity section banner row. -/
def bannerRow : Row := [CellValue.Text (strL "Equity")]

/-- A data row: company text and numeric percent. -/
def dataRow (name : String) (v : ℚ) : Row := [CellValue.Text (strL name), CellValue.Num v]

/-- Grid for C3: a "Total Equity" row inside the section, followed by one
more data row. -/
def gridTotalEquity : List Row :=
  [hdrRow, bannerRow, dataRow "Alpha One Co" 2, dataRow "Beta One Co" 3,
   dataRow "Gamma One Co" 4, dataRow "Delta One Co" 6, dataRow "Epsilon One Co" 7,
   [CellValue.Text (strL "Total Equity")], dataRow "Extra Co" 2]

/-- Grid for C7: two rows normalising to the same company name. -/
def gridMerge : List Row :=
  [hdrRow, bannerRow, dataRow "Tata Motors Ltd" 2, dataRow "A1 Corp" 6,
   dataRow "B1 Corp" 7, dataRow "C1 Corp" 8, dataRow "D1 Corp" 9,
   dataRow "Tata Motors Limited" (mkRat 3 2)]

/-- Grid for C2: all sampled percent values are fractional. -/
def gridFractional : List Row :=
  [hdrRow, bannerRow, dataRow "Alpha Co" (mkRat 527 10000), dataRow "Beta Co" (mkRat 312 10000),
   dataRow "Gamma Co" (mkRat 198 10000), dataRow "Delta Co" (mkRat 4 100),
   dataRow "Epsilon Co" (mkRat 5 100)]

/-- Grid for C9: five holdings in unsorted order. -/
def gridUnsorted : List Row :=
  [hdrRow, bannerRow, dataRow "Alpha Co" 2, dataRow "Beta Co" 9, dataRow "Gamma Co" 6,
   dataRow "Delta Co" 8, dataRow "Epsilon Co" 7]

/-- Grid for C8: five valid holdings. -/
def gridFive : List Row :=
  [hdrRow, bannerRow, dataRow "AAA Co" 2, dataRow "BBB Co" 3, dataRow "CCC Co" 4,
   dataRow "DDD Co" 6, dataRow "EEE Co" 7]

/-- Grid for C1: the single row matches the header test only through the bare
word "instrument" and the "% of nav" percent signal. -/
def gridBareSignals : List Row :=
  [[CellValue.Text (strL "instrument"), CellValue.Text (strL "% of nav")]]

/-- The snapshot assembled from `gridUnsorted`, used as a concrete witness. -/
def snapUnsorted : FundSnapshot :=
  ⟨strL "F", strL "May", 2024, strL "t", 5,
    [⟨strL "Beta Co", 9, none, none⟩, ⟨strL "Delta Co", 8, none, none⟩,
     ⟨strL "Epsilon Co", 7, none, none⟩, ⟨strL "Gamma Co", 6, none, none⟩,
     ⟨strL "Alpha Co", 2, none, none⟩]⟩

/-- The deduplication invariant of the extraction loop: the lowercased
company names of the accepted holdings are pairwise distinct, and `seen`
holds exactly those lowercased names. -/
def ExtInvariant (s : ExtState) : Prop :=
  (s.holdings.map (fun h => toLowerL h.company)).Nodup ∧
  ∀ nl, nl ∈ s.seen ↔ nl ∈ s.holdings.map (fun h => toLowerL h.company)

/-- Specification predicate: the cell at column `c` of `row` is non-missing
and carries the instrument-name column signal of lines 128-130. -/
def cellNameSignal (row : Row) (c : Nat) : Prop :=
  ∃ cell, row.get? c = some cell ∧ cell ≠ CellValue.Empty ∧
    containsSub (toLowerL (pyStrip (cellText cell))) (strL "name of the instrument") = true

/-- Specification predicate: the cell at column `p` of `row` is non-missing
and carries the percent column signal of lines 131-132. -/
def cellPctSignal (row : Row) (p : Nat) : Prop :=
  ∃ cell, row.get? p = some cell ∧ cell ≠ CellValue.Empty ∧
    (containsSub (toLowerL (pyStrip (cellText cell))) (strL "% to net") = true ∨
     containsSub (toLowerL (pyStrip (cellText cell))) (strL "% to nav") = true)

/-! ## Helper lemmas -/

theorem qMul_eq_mul (a b : ℚ) : qMul a b = a * b := by
  rw [qMul, Rat.mul_def, Rat.normalize_eq_mkRat]

theorem qAdd_eq_add (a b : ℚ) : qAdd a b = a + b := by
  rw [qAdd, Rat.add_def, Rat.normalize_eq_mkRat]

theorem qFloor_eq_floor (q : ℚ) : qFloor q = ⌊q⌋ := by
  rw [qFloor, Rat.floor_def]

theorem isPrefixL_iff (pat : List Char) : ∀ l, isPrefixL pat l = true ↔ pat <+: l := by
  induction pat with
  | nil => intro l; simp [isPrefixL, dropPrefixL]
  | cons a as ih =>
    intro l
    cases l with
    | nil => simp [isPrefixL, dropPrefixL]
    | cons b bs =>
      by_cases hab : a = b
      · subst hab
        simp only [isPrefixL, dropPrefixL, if_pos rfl, List.cons_prefix_cons, true_and]
        exact ih bs
      · simp [isPrefixL, dropPrefixL, hab, List.cons_prefix_cons]

theorem containsSub_iff (pat : List Char) : ∀ l, containsSub l pat = true ↔ pat <:+: l := by
  intro l
  induction l with
  | nil => simp [containsSub, List.isEmpty_iff]
  | cons c t ih =>
    simp only [containsSub, Bool.or_eq_true, isPrefixL_iff, ih, List.infix_cons_iff]

theorem containsSub_of_infix {l p q : List Char} (hpq : p <:+: q)
    (h : containsSub l q = true) : containsSub l p = true :=
  (containsSub_iff p l).mpr (hpq.trans ((containsSub_iff q l).mp h))

theorem wordsCore_good (l : List Char) :
    (∀ c ∈ (wordsCore l).1, pyIsSpace c = false) ∧
    (∀ w ∈ (wordsCore l).2, w ≠ [] ∧ ∀ c ∈ w, pyIsSpace c = false) := by
  induction l with
  | nil => simp [wordsCore]
  | cons c rest ih =>
    by_cases hc : pyIsSpace c
    · refine ⟨by simp [wordsCore, hc], ?_⟩
      intro w hw
      simp only [wordsCore, hc, if_true] at hw
      by_cases hemp : (wordsCore rest).1.isEmpty
      · exact ih.2 w (by simpa [hemp] using hw)
      · simp only [hemp, if_false] at hw
        rcases List.mem_cons.mp hw with h1 | h2
        · subst h1
          exact ⟨by simpa [List.isEmpty_iff] using hemp, ih.1⟩
        · exact ih.2 w h2
    · constructor
      · intro d hd
        simp only [wordsCore, hc, if_false] at hd
        rcases List.mem_cons.mp hd with h1 | h2
        · subst h1; simpa using hc
        · exact ih.1 d h2
      · intro w hw
        simp only [wordsCore, hc, if_false] at hw
        exact ih.2 w hw

theorem words_good (l : List Char) :
    ∀ w ∈ words l, w ≠ [] ∧ ∀ c ∈ w, pyIsSpace c = false := by
  intro w hw
  simp only [words] at hw
  by_cases hemp : (wordsCore l).1.isEmpty
  · exact (wordsCore_good l).2 w (by simpa [hemp] using hw)
  · simp only [hemp, if_false] at hw
    rcases List.mem_cons.mp hw with h1 | h2
    · subst h1
      exact ⟨by simpa [List.isEmpty_iff] using hemp, (wordsCore_good l).1⟩
    · exact (wordsCore_good l).2 w h2

theorem wordsCore_append (w : List Char) (l : List Char)
    (hw : ∀ c ∈ w, pyIsSpace c = false) :
    wordsCore (w ++ l) = (w ++ (wordsCore l).1, (wordsCore l).2) := by
  induction w with
  | nil => simp
  | cons c cs ih =>
    have hc : pyIsSpace c = false := hw c (by simp)
    have ihc := ih (fun d hd => hw d (by simp [hd]))
    simp [wordsCore, hc, ihc]

theorem words_joinWords : ∀ ws : List (List Char),
    (∀ w ∈ ws, w ≠ [] ∧ ∀ c ∈ w, pyIsSpace c = false) →
    words (joinWords ws) = ws := by
  intro ws
  induction ws with
  | nil => intro _; simp [joinWords, words, wordsCore]
  | cons w rest ih =>
    intro hgood
    cases rest with
    | nil =>
      have hw := hgood w (by simp)
      have : wordsCore (w ++ []) = (w ++ (wordsCore []).1, (wordsCore []).2) :=
        wordsCore_append w [] hw.2
      simp only [joinWords, words]
      simp only [List.append_nil] at this
      rw [this]
      simp [wordsCore, List.isEmpty_iff, hw.1]
    | cons x rest2 =>
      have hw := hgood w (by simp)
      have hx : words (joinWords (x :: rest2)) = x :: rest2 :=
        ih (fun u hu => hgood u (by simp [hu]))
      have hsp : wordsCore (' ' :: joinWords (x :: rest2)) =
          ([], words (joinWords (x :: rest2))) := by
        simp [wordsCore, words, pyIsSpace]
      show words (w ++ ' ' :: joinWords (x :: rest2)) = w :: x :: rest2
      rw [words, wordsCore_append w _ hw.2, hsp, hx]
      simp [List.isEmpty_iff, hw.1]

theorem collapse_idem (l : List Char) : collapse (collapse l) = collapse l := by
  rw [collapse, collapse, words_joinWords (words l) (words_good l)]

theorem dropWhile_eq_self_of_head (l : List Char)
    (hl : ∀ c t, l = c :: t → pyIsSpace c = false) : l.dropWhile pyIsSpace = l := by
  cases l with
  | nil => rfl
  | cons c t => simp [List.dropWhile_cons, hl c t rfl]

theorem joinWords_cons_ne_nil (x : List Char) (r : List (List Char)) (hx : x ≠ []) :
    joinWords (x :: r) ≠ [] := by
  cases r with
  | nil => exact hx
  | cons y r2 =>
    rw [joinWords]
    simp

theorem joinWords_head_ok (ws : List (List Char))
    (h : ∀ w ∈ ws, w ≠ [] ∧ ∀ c ∈ w, pyIsSpace c = false) :
    ∀ c t, joinWords ws = c :: t → pyIsSpace c = false := by
  intro c t heq
  cases ws with
  | nil => exact absurd heq (by simp [joinWords])
  | cons w rest =>
    have hw := h w (by simp)
    obtain ⟨cw, tw, rfl⟩ : ∃ cw tw, w = cw :: tw := by
      cases w with
      | nil => exact absurd rfl hw.1
      | cons cw tw => exact ⟨cw, tw, rfl⟩
    have hcw : pyIsSpace cw = false := hw.2 cw (by simp)
    cases rest with
    | nil =>
      rw [joinWords] at heq
      cases heq
      exact hcw
    | cons x r2 =>
      rw [joinWords, List.cons_append] at heq
      cases heq
      exact hcw

theorem joinWords_rev_head_ok (ws : List (List Char))
    (h : ∀ w ∈ ws, w ≠ [] ∧ ∀ c ∈ w, pyIsSpace c = false) :
    ∀ c t, (joinWords ws).reverse = c :: t → pyIsSpace c = false := by
  induction ws with
  | nil =>
    intro c t heq
    exact absurd heq (by simp [joinWords])
  | cons w rest ih =>
    intro c t heq
    have hw := h w (by simp)
    cases rest with
    | nil =>
      rw [joinWords] at heq
      have hc : c ∈ w := by
        have : c ∈ w.reverse := by
          rw [heq]
          simp
        simpa using this
      exact hw.2 c hc
    | cons x r2 =>
      have hrest : ∀ u ∈ x :: r2, u ≠ [] ∧ ∀ c2 ∈ u, pyIsSpace c2 = false :=
        fun u hu => h u (by simp [hu])
      have hne : joinWords (x :: r2) ≠ [] :=
        joinWords_cons_ne_nil x r2 (hrest x (by simp)).1
      obtain ⟨c2, t2, hrev⟩ : ∃ c2 t2, (joinWords (x :: r2)).reverse = c2 :: t2 := by
        cases hr : (joinWords (x :: r2)).reverse with
        | nil => exact absurd (by simpa using hr) hne
        | cons c2 t2 => exact ⟨c2, t2, rfl⟩
      rw [joinWords, List.reverse_append, List.reverse_cons, List.append_assoc, hrev] at heq
      cases heq
      exact ih hrest _ _ hrev

theorem pyStrip_collapse (l : List Char) : pyStrip (collapse l) = collapse l := by
  rw [pyStrip, collapse]
  rw [dropWhile_eq_self_of_head _ (joinWords_head_ok (words l) (words_good l))]
  rw [dropWhile_eq_self_of_head _ (joinWords_rev_head_ok (words l) (words_good l))]
  exact List.reverse_reverse _

/-! ## C5: suffix canonicalization -/

/-- C5 counterexample: `normalize_company_name "ABC Private Limited"` yields
"ABC Private Ltd.", not "ABC Ltd." — the `Limited → Ltd.` rule fires first
and the `Private Limited` rule never sees its pattern, so the three claimed
inputs are not all equal. -/
theorem c5_counterexample :
    normalize_company_name (strL "ABC Private Limited") ≠
      normalize_company_name (strL "ABC Pvt. Ltd.") := by decide

/-- C5 (amended): "ABC Pvt. Ltd." and "ABC Ltd" both canonicalize to
"ABC Ltd.", but "ABC Private Limited" canonicalizes to "ABC Private Ltd."
because the `Limited → Ltd.` replacement is applied before the
`Private Limited` one. -/
theorem c5_suffix_canonicalization :
    normalize_company_name (strL "ABC Pvt. Ltd.") = some (strL "ABC Ltd.") ∧
    normalize_company_name (strL "ABC Ltd") = some (strL "ABC Ltd.") ∧
    normalize_company_name (strL "ABC Private Limited") = some (strL "ABC Private Ltd.") := by
  decide

/-! ## C4: normalizer idempotence -/

/-- C4 counterexample: `normalize_company_name` is not idempotent — on
"ABC B** A**" one application strips only the trailing annotation " A**",
and a second application strips " B**" as well. -/
theorem c4_counterexample :
    (normalize_company_name (strL "ABC B** A**")).bind normalize_company_name ≠
      normalize_company_name (strL "ABC B** A**") := by decide

/-- C4 (amended): the trim and whitespace-collapsing stages are always
self-stable on normalizer output (`pyStrip_collapse`, `collapse_idem`), so a
second application of the normalizer leaves the result unchanged exactly on
those outputs that are nonempty and fixed by the annotation-stripping,
parenthetical-removal and suffix-rule stages; stacked annotations (or an
emptied name) escape this and change again. -/
theorem c4_normalizer_idempotent_on_stable (x y : List Char)
    (h : normalize_company_name x = some y) (hne : y.isEmpty = false)
    (h2 : annotStrip y = y) (h3 : stripParens y = y) (h4 : applyRules y = y) :
    normalize_company_name y = some y := by
  obtain ⟨z, hzeq⟩ : ∃ z, y = collapse z := by
    rw [normalize_company_name] at h
    by_cases hx : x.isEmpty = true
    · rw [if_pos hx] at h
      exact absurd h (by simp)
    · rw [if_neg hx] at h
      exact ⟨_, (Option.some.inj h).symm⟩
  have hy : collapse y = y := by
    rw [hzeq, collapse_idem]
  have h1 : pyStrip y = y := by
    rw [hzeq, pyStrip_collapse]
  rw [normalize_company_name, if_neg (by simp [hne]), h1, hy, h2, h3, h4, hy]

/-- C4 witness: a fixed point of all stages, e.g. a name already in
canonical form, is normalized to itself a second time. -/
theorem c4_witness :
    normalize_company_name (strL "Tata Motors Ltd.") = some (strL "Tata Motors Ltd.") :=
  c4_normalizer_idempotent_on_stable (strL "Tata Motors Ltd.") (strL "Tata Motors Ltd.")
    (by decide) (by decide) (by decide) (by decide) (by decide)

/-! ## C6: range filter -/

/-- C6: the parsed, scale-adjusted value is accepted exactly when
`0.01 < v < 50`; the boundary and out-of-range sample values are rejected,
the in-range ones accepted, and a row whose value fails the filter leaves
the extraction state unchanged (only that row is skipped). -/
theorem c6_range_filter :
    (∀ v : ℚ, rangeOk v = true ↔ 1 / 100 < v ∧ v < 50) ∧
    rangeOk (mkRat 5 1000) = false ∧ rangeOk 55 = false ∧
    rangeOk (mkRat 1 100) = false ∧ rangeOk 50 = false ∧
    rangeOk (mkRat 11 1000) = true ∧ rangeOk (mkRat 499 10) = true ∧
    (∀ ccol pcol conv s row v, scaledPercent pcol conv row = some v → rangeOk v = false →
      processRow ccol pcol conv s row = s) := by
  refine ⟨?_, by decide, by decide, by decide, by decide, by decide, by decide, ?_⟩
  · intro v
    have h100 : (mkRat 1 100 : ℚ) = 1 / 100 := by rw [Rat.mkRat_eq_div]; norm_num
    rw [rangeOk, h100, decide_eq_true_iff]
  · intro ccol pcol conv s row v h hr
    simp only [processRow, h, hr]
    simp [ite_self]

/-- C6 witness: a row carrying the out-of-range value 55 is skipped by the
record extractor. -/
theorem c6_witness :
    processRow 0 1 false ⟨[], [], true⟩ (dataRow "Foo Two Co" 55) = ⟨[], [], true⟩ :=
  (c6_range_filter.2.2.2.2.2.2.2) 0 1 false ⟨[], [], true⟩ (dataRow "Foo Two Co" 55) 55
    (by decide) (by decide)

/-! ## C10: ragged rows are harmless -/

/-- C10: a row shorter than the located column indices contributes nothing —
the sampler yields no sample from it, and the record extractor leaves the
whole extraction state unchanged. -/
theorem c10_ragged_total :
    (∀ pcol (row : Row), row.length ≤ pcol → sampleOfRow pcol row = none) ∧
    (∀ ccol pcol conv s (row : Row), row.length ≤ ccol ∨ row.length ≤ pcol →
      processRow ccol pcol conv s row = s) := by
  have hget : ∀ (row : Row) i, row.length ≤ i → getCell row i = CellValue.Empty := by
    intro row i hi
    exact List.getD_eq_default _ _ hi
  constructor
  · intro pcol row h
    simp only [sampleOfRow, hget row pcol h]
  · intro ccol pcol conv s row h
    rcases h with h | h
    · simp only [processRow, hget row ccol h]
      simp [ite_self]
    · simp only [processRow, hget row pcol h]
      simp [ite_self]

/-- C10 witness: a one-cell row is skipped whole when the percent column
index is beyond its end. -/
theorem c10_witness :
    processRow 0 5 false ⟨[], [], true⟩ [CellValue.Text (strL "Foo Two Co")] = ⟨[], [], true⟩ :=
  c10_ragged_total.2 0 5 false ⟨[], [], true⟩ [CellValue.Text (strL "Foo Two Co")]
    (Or.inr (by decide))

/-! ## C2: format detector -/

theorem sampleOfRow_pos (pcol : Nat) (row : Row) (v : ℚ)
    (h : sampleOfRow pcol row = some v) : 0 < v := by
  unfold sampleOfRow at h
  split at h
  · exact absurd h (by simp)
  · split at h
    · cases h; assumption
    · exact absurd h (by simp)
  · split at h
    · split at h
      · cases h; assumption
      · exact absurd h (by simp)
    · exact absurd h (by simp)

theorem collectSamples_pos (pcol : Nat) : ∀ (rows : List Row) (acc : List ℚ),
    (∀ w ∈ acc, 0 < w) → ∀ v ∈ collectSamples pcol rows acc, 0 < v := by
  intro rows
  induction rows with
  | nil =>
    intro acc hacc v hv
    simp only [collectSamples] at hv
    exact hacc v (List.mem_reverse.mp hv)
  | cons r rest ih =>
    intro acc hacc v hv
    simp only [collectSamples] at hv
    split at hv
    · exact ih acc hacc v hv
    · rename_i w hs
      have hw : 0 < w := sampleOfRow_pos pcol r w hs
      have hacc2 : ∀ u ∈ w :: acc, 0 < u := by
        intro u hu
        rcases List.mem_cons.mp hu with h1 | h2
        · subst h1; exact hw
        · exact hacc u h2
      split at hv
      · exact hacc2 v (List.mem_reverse.mp hv)
      · exact ih _ hacc2 v hv

theorem collectSamples_length (pcol : Nat) : ∀ (rows : List Row) (acc : List ℚ),
    acc.length < 10 → (collectSamples pcol rows acc).length ≤ 10 := by
  intro rows
  induction rows with
  | nil =>
    intro acc h
    simp only [collectSamples, List.length_reverse]
    omega
  | cons r rest ih =>
    intro acc h
    simp only [collectSamples]
    split
    · exact ih acc h
    · rename_i w hs
      split
      · simp only [List.length_reverse, List.length_cons]
        omega
      · rename_i h10
        refine ih _ ?_
        simp only [List.length_cons] at h10 ⊢
        omega

/-- C2 counterexample: on a percent cell holding the text "0.5%" the real
sampler collects nothing (float("0.5%") fails — no `%` stripping happens in
the sampler) and selects no-conversion mode, while the claimed detector
strips the `%`, collects the fractional sample 0.5 and selects fractional
mode. (The claimed 30-row window also exceeds the code's
`range(h+1, min(h+30, len(df)))`, which covers 29 rows.) -/
theorem c2_counterexample :
    detectFormat [[CellValue.Text (strL "0.5%")]] 0 = false ∧
    detectFormatSpec [[CellValue.Text (strL "0.5%")]] 0 = true := by decide

/-- C2 (amended): the detector samples the percent column of the 29 rows
following the header, collecting at most 10 strictly-positive numeric
samples; a textual cell is parsed by `float()` with no `%` stripping (a
'%'-suffixed cell is skipped as unparsable); fractional mode is selected
exactly when at least one sample was collected and every sample is < 1,
and then each percent value is multiplied by 100 (0.0527 becomes 5.27);
otherwise values pass through unchanged. -/
theorem c2_format_detector :
    (∀ (rows : List Row) pcol, detectFormat rows pcol = detectFormat (rows.take 29) pcol) ∧
    (∀ (rows : List Row) pcol, (collectSamples pcol (rows.take 29) []).length ≤ 10) ∧
    (∀ (rows : List Row) pcol v, v ∈ collectSamples pcol (rows.take 29) [] → 0 < v) ∧
    (∀ (rows : List Row) pcol, detectFormat rows pcol = true ↔
      (collectSamples pcol (rows.take 29) [] ≠ [] ∧
        ∀ v ∈ collectSamples pcol (rows.take 29) [], v < 1)) ∧
    detectFormat [dataRow "s1" (mkRat 527 10000), dataRow "s2" (mkRat 312 10000),
      dataRow "s3" (mkRat 198 10000)] 1 = true ∧
    qMul (mkRat 527 10000) 100 = mkRat 527 100 ∧
    detectFormat [dataRow "s1" (mkRat 644 100), dataRow "s2" (mkRat 321 100)] 1 = false ∧
    (∀ w : ℚ, scaledPercent 1 false (dataRow "x" w) = some w) ∧
    find_holdings_in_dataframe gridFractional =
      some [⟨strL "Alpha Co", mkRat 527 100, none, none⟩, ⟨strL "Beta Co", mkRat 312 100, none, none⟩,
        ⟨strL "Gamma Co", mkRat 198 100, none, none⟩, ⟨strL "Delta Co", 4, none, none⟩,
        ⟨strL "Epsilon Co", 5, none, none⟩] := by
  refine ⟨?_, ?_, ?_, ?_, by decide, by decide, by decide, fun w => rfl, by decide⟩
  · intro rows pcol
    simp [detectFormat, List.take_take, min_self]
  · intro rows pcol
    exact collectSamples_length pcol _ [] (by simp)
  · intro rows pcol v hv
    exact collectSamples_pos pcol _ [] (by simp) v hv
  · intro rows pcol
    rw [detectFormat]
    by_cases hemp : (collectSamples pcol (rows.take 29) []).isEmpty
    · rw [if_pos hemp]
      simp [List.isEmpty_iff.mp hemp]
    · rw [if_neg hemp]
      constructor
      · intro hall
        refine ⟨by simpa [List.isEmpty_iff] using hemp, ?_⟩
        intro v hv
        simpa using List.all_eq_true.mp hall v hv
      · intro hr
        exact List.all_eq_true.mpr (fun v hv => by simpa using hr.2 v hv)

/-- C2 witness: a collected sample is strictly positive at a concrete grid. -/
theorem c2_witness : (0 : ℚ) < mkRat 527 10000 :=
  c2_format_detector.2.2.1 [dataRow "s1" (mkRat 527 10000)] 1 (mkRat 527 10000) (by decide)

/-! ## C3: section state machine -/

/-- C3 counterexample: on a grid whose equity section ends with a
"Total Equity" row followed by one more data row, the code's loop (banner
check first: the row contains "equity", so it is skipped) extracts six
holdings including the trailing "Extra Co" row, whereas the claimed state
machine (terminal check first inside the section) stops at the total row
and extracts five. -/
theorem c3_counterexample :
    find_holdings_in_dataframe gridTotalEquity ≠ find_holdings_claimed gridTotalEquity := by
  decide

/-- C3 (amended): the banner check is performed first in every state: an
in-section row containing both "total" and "equity" is skipped as a banner
(the flag stays set) and the scan continues; the terminal stop on "total"
(with at least one accepted holding) fires only for rows that do not
contain "equity". -/
theorem c3_banner_precedes_terminal :
    ∀ ccol pcol conv (row : Row) rest s,
      s.equity = true → containsSub (rowStr row) (strL "total") = true →
      s.holdings ≠ [] →
      (containsSub (rowStr row) (strL "equity") = true →
        extractLoop ccol pcol conv (row :: rest) s =
          extractLoop ccol pcol conv rest { s with equity := true }) ∧
      (containsSub (rowStr row) (strL "equity") = false →
        extractLoop ccol pcol conv (row :: rest) s = s) := by
  intro ccol pcol conv row rest s hs htot hnil
  constructor
  · intro heq
    simp only [extractLoop, heq, Bool.or_true, if_true]
  · intro heq
    have hlong : containsSub (rowStr row) (strL "equity & equity related") = false := by
      by_contra hcon
      have hcon2 : containsSub (rowStr row) (strL "equity & equity related") = true := by
        simpa using hcon
      have heq2 : containsSub (rowStr row) (strL "equity") = true :=
        containsSub_of_infix
          (((isPrefixL_iff (strL "equity") (strL "equity & equity related")).mp
            (by decide)).isInfix) hcon2
      rw [heq2] at heq
      exact absurd heq (by simp)
    have hemp : s.holdings.isEmpty = false := by
      simpa [List.isEmpty_iff] using hnil
    simp only [extractLoop, heq, hlong, Bool.or_self, Bool.false_eq_true, if_false, hs, htot,
      hemp, Bool.or_true, Bool.true_or, Bool.and_self, Bool.not_false, Bool.true_and,
      Bool.and_true, if_true]

/-- C3 witness: inside the section, a "Total Equity" row with one holding
already accepted is skipped as a banner rather than ending the scan. -/
theorem c3_witness :
    extractLoop 0 1 false [[CellValue.Text (strL "Total Equity")]]
        ⟨[⟨strL "Aaa Co", 1, none, none⟩], [strL "aaa co"], true⟩ =
      extractLoop 0 1 false []
        ⟨[⟨strL "Aaa Co", 1, none, none⟩], [strL "aaa co"], true⟩ :=
  (c3_banner_precedes_terminal 0 1 false [[CellValue.Text (strL "Total Equity")]].head! []
    ⟨[⟨strL "Aaa Co", 1, none, none⟩], [strL "aaa co"], true⟩
    rfl (by decide) (by decide)).1 (by decide)

/-! ## C1: header locator -/

theorem findHeaderRowAux_sound : ∀ (df : List Row) (h : Nat) (hrow : Row),
    findHeaderRowAux df = some (h, hrow) →
    df.get? h = some hrow ∧ rowHasSignals hrow = true ∧
      ∀ j r2, j < h → df.get? j = some r2 → rowHasSignals r2 = false := by
  intro df
  induction df with
  | nil =>
    intro h hrow hfind
    exact absurd hfind (by simp [findHeaderRowAux])
  | cons r rest ih =>
    intro h hrow hfind
    simp only [findHeaderRowAux] at hfind
    by_cases hr : rowHasSignals r = true
    · rw [if_pos hr] at hfind
      cases Option.some.inj hfind
      refine ⟨rfl, hr, ?_⟩
      intro j r2 hj
      omega
    · rw [if_neg hr] at hfind
      rcases hrec : findHeaderRowAux rest with _ | q
      · rw [hrec] at hfind
        exact absurd hfind (by simp)
      · rw [hrec] at hfind
        obtain ⟨i, row2⟩ := q
        simp only [Option.map_some'] at hfind
        injection hfind with hfind2
        injection hfind2 with hh hr2
        subst hh
        subst hr2
        obtain ⟨h1, h2, h3⟩ := ih i row2 hrec
        refine ⟨h1, h2, ?_⟩
        intro j r2 hj hget
        cases j with
        | zero =>
          simp only [List.get?] at hget
          cases Option.some.inj hget
          simpa using hr
        | succ j2 =>
          exact h3 j2 r2 (by omega) hget

theorem findColsAux_sound : ∀ (row : Row) (i : Nat) (acc : Option Nat × Option Nat),
    (∀ c, (findColsAux i acc row).1 = some c →
      acc.1 = some c ∨ ∃ j, c = i + j ∧ cellNameSignal row j) ∧
    (∀ p, (findColsAux i acc row).2 = some p →
      acc.2 = some p ∨ ∃ j, p = i + j ∧ cellPctSignal row j) := by
  intro row
  induction row with
  | nil =>
    intro i acc
    constructor
    · intro c hc
      exact Or.inl hc
    · intro p hp
      exact Or.inl hp
  | cons cell rest ih =>
    intro i acc
    have hname_shift : ∀ j, cellNameSignal rest j → cellNameSignal (cell :: rest) (j + 1) := by
      intro j hj
      obtain ⟨c2, hc2, hne, hcs⟩ := hj
      exact ⟨c2, by simpa using hc2, hne, hcs⟩
    have hpct_shift : ∀ j, cellPctSignal rest j → cellPctSignal (cell :: rest) (j + 1) := by
      intro j hj
      obtain ⟨c2, hc2, hne, hcs⟩ := hj
      exact ⟨c2, by simpa using hc2, hne, hcs⟩
    constructor
    · intro c hc
      simp only [findColsAux] at hc
      rcases (ih (i + 1) _).1 c hc with hacc | ⟨j, hj1, hj2⟩
      · by_cases hemp : cell = CellValue.Empty
        · rw [if_pos hemp] at hacc
          exact Or.inl hacc
        · rw [if_neg hemp] at hacc
          by_cases hn : containsSub (toLowerL (pyStrip (cellText cell)))
              (strL "name of the instrument") = true
          · rw [if_pos hn] at hacc
            have hci : i = c := Option.some.inj hacc
            refine Or.inr ⟨0, by omega, cell, rfl, hemp, hn⟩
          · rw [if_neg hn] at hacc
            by_cases hp : (containsSub (toLowerL (pyStrip (cellText cell))) (strL "% to net") ||
                containsSub (toLowerL (pyStrip (cellText cell))) (strL "% to nav")) = true
            · rw [if_pos hp] at hacc
              exact Or.inl hacc
            · rw [if_neg hp] at hacc
              exact Or.inl hacc
      · refine Or.inr ⟨j + 1, by omega, hname_shift j hj2⟩
    · intro p hp
      simp only [findColsAux] at hp
      rcases (ih (i + 1) _).2 p hp with hacc | ⟨j, hj1, hj2⟩
      · by_cases hemp : cell = CellValue.Empty
        · rw [if_pos hemp] at hacc
          exact Or.inl hacc
        · rw [if_neg hemp] at hacc
          by_cases hn : containsSub (toLowerL (pyStrip (cellText cell)))
              (strL "name of the instrument") = true
          · rw [if_pos hn] at hacc
            exact Or.inl hacc
          · rw [if_neg hn] at hacc
            by_cases hpc : (containsSub (toLowerL (pyStrip (cellText cell))) (strL "% to net") ||
                containsSub (toLowerL (pyStrip (cellText cell))) (strL "% to nav")) = true
            · rw [if_pos hpc] at hacc
              have hpi : i = p := Option.some.inj hacc
              refine Or.inr ⟨0, by omega, cell, rfl, hemp, by simpa using hpc⟩
            · rw [if_neg hpc] at hacc
              exact Or.inl hacc
      · refine Or.inr ⟨j + 1, by omega, hpct_shift j hj2⟩

/-- C1 counterexample: the grid whose only row reads
`["instrument", "% of nav"]` satisfies the header-row test (bare
"instrument" plus "% of nav"), yet the locator rejects the sheet: the
column scan looks only for "name of the instrument" and
"% to net"/"% to nav", so no column index is produced. -/
theorem c1_counterexample :
    rowHasSignals [CellValue.Text (strL "instrument"), CellValue.Text (strL "% of nav")] = true ∧
    find_header gridBareSignals = none := by decide

/-- C1 (amended): when the locator succeeds it returns the index of the
topmost row satisfying the (broad) header-row test together with column
indices of cells carrying the narrow signals — "name of the instrument"
for the company column and "% to net"/"% to nav" for the percent column;
when the topmost signal row has no cell with a narrow signal (e.g. it
matched only via bare "instrument" or only via "% of nav"), the locator
returns no result and the sheet is rejected. -/
theorem c1_header_locator :
    (∀ df h c p, find_header df = some (h, c, p) →
      ∃ hrow, df.get? h = some hrow ∧ rowHasSignals hrow = true ∧
        (∀ j r2, j < h → df.get? j = some r2 → rowHasSignals r2 = false) ∧
        cellNameSignal hrow c ∧ cellPctSignal hrow p) ∧
    (∀ df h hrow, findHeaderRowAux df = some (h, hrow) →
      ((findColsAux 0 (none, none) hrow).1 = none ∨
        (findColsAux 0 (none, none) hrow).2 = none) →
      find_header df = none) := by
  constructor
  · intro df h c p hfind
    rw [find_header] at hfind
    split at hfind
    · exact absurd hfind (by simp)
    · rename_i h2 hrow hhr
      split at hfind
      · rename_i c2 p2 hca
        cases Option.some.inj hfind
        obtain ⟨hg, hsig, htop⟩ := findHeaderRowAux_sound df h hrow hhr
        have hcol := findColsAux_sound hrow 0 (none, none)
        have hc : cellNameSignal hrow c := by
          rcases hcol.1 c (by rw [hca]) with habs | ⟨j, hj1, hj2⟩
          · exact absurd habs (by simp)
          · simpa [hj1] using hj2
        have hp : cellPctSignal hrow p := by
          rcases hcol.2 p (by rw [hca]) with habs | ⟨j, hj1, hj2⟩
          · exact absurd habs (by simp)
          · simpa [hj1] using hj2
        exact ⟨hrow, hg, hsig, htop, hc, hp⟩
      · exact absurd hfind (by simp)
  · intro df h hrow hfind hdisj
    simp only [find_header, hfind]
    rcases hca : findColsAux 0 (none, none) hrow with ⟨oc, op⟩
    rcases hdisj with h1 | h1
    · rw [hca] at h1
      have h2 : oc = none := h1
      subst h2
      rcases op with _ | p2 <;> rfl
    · rw [hca] at h1
      have h2 : op = none := h1
      subst h2
      rcases oc with _ | c2 <;> rfl

/-- C1 witness: on the bare-signal grid the header row is found but no
column qualifies, so the locator reports failure. -/
theorem c1_witness : find_header gridBareSignals = none :=
  c1_header_locator.2 gridBareSignals 0
    [CellValue.Text (strL "instrument"), CellValue.Text (strL "% of nav")]
    (by decide) (Or.inl (by decide))

/-! ## C7: deduplicator / merger -/

theorem mergeInto_map_company : ∀ (l : List Holding) (nl : List Char) (v : ℚ),
    (mergeInto l nl v).map Holding.company = l.map Holding.company := by
  intro l nl v
  induction l with
  | nil => rfl
  | cons h t ih =>
    simp only [mergeInto]
    by_cases hc : toLowerL h.company = nl
    · rw [if_pos hc]
      simp
    · rw [if_neg hc]
      simp [ih]

theorem mergeInto_map_lower : ∀ (l : List Holding) (nl : List Char) (v : ℚ),
    (mergeInto l nl v).map (fun h => toLowerL h.company) =
      l.map (fun h => toLowerL h.company) := by
  intro l nl v
  induction l with
  | nil => rfl
  | cons h t ih =>
    simp only [mergeInto]
    by_cases hc : toLowerL h.company = nl
    · rw [if_pos hc]
      simp
    · rw [if_neg hc]
      simp [ih]

theorem ExtInvariant_merge (s : ExtState) (nl : List Char) (v : ℚ) (hs : ExtInvariant s) :
    ExtInvariant { s with holdings := mergeInto s.holdings nl v } := by
  obtain ⟨h1, h2⟩ := hs
  constructor
  · show ((mergeInto s.holdings nl v).map (fun h => toLowerL h.company)).Nodup
    rw [mergeInto_map_lower]
    exact h1
  · intro nl2
    show nl2 ∈ s.seen ↔ nl2 ∈ (mergeInto s.holdings nl v).map (fun h => toLowerL h.company)
    rw [mergeInto_map_lower]
    exact h2 nl2

theorem ExtInvariant_append (s : ExtState) (nm : List Char) (q : ℚ) (hs : ExtInvariant s)
    (hnotin : toLowerL nm ∉ s.seen) :
    ExtInvariant ⟨s.holdings ++ [⟨nm, q, none, none⟩], toLowerL nm :: s.seen, s.equity⟩ := by
  obtain ⟨h1, h2⟩ := hs
  have hnot2 : toLowerL nm ∉ s.holdings.map (fun h => toLowerL h.company) :=
    fun hin => hnotin ((h2 _).mpr hin)
  constructor
  · show ((s.holdings ++ [(⟨nm, q, none, none⟩ : Holding)]).map (fun h => toLowerL h.company)).Nodup
    rw [List.map_append, List.nodup_append]
    refine ⟨h1, List.nodup_singleton _, ?_⟩
    intro x hx hx2
    simp only [List.map_cons, List.map_nil, List.mem_singleton] at hx2
    subst hx2
    exact hnot2 hx
  · intro nl2
    show nl2 ∈ toLowerL nm :: s.seen ↔
      nl2 ∈ (s.holdings ++ [(⟨nm, q, none, none⟩ : Holding)]).map (fun h => toLowerL h.company)
    simp only [List.mem_cons, List.map_append, List.mem_append, List.map_cons, List.map_nil,
      List.mem_singleton, h2 nl2]
    tauto

theorem processRow_inv (ccol pcol : Nat) (conv : Bool) (s : ExtState) (row : Row)
    (hs : ExtInvariant s) : ExtInvariant (processRow ccol pcol conv s row) := by
  unfold processRow
  split
  · exact hs
  split
  · exact hs
  split
  · exact hs
  split
  · exact hs
  split
  · exact hs
  rename_i v hv
  split
  · exact hs
  split
  · exact hs
  rename_i nm hnm
  split
  · exact hs
  split
  · exact ExtInvariant_merge s (toLowerL nm) v hs
  · rename_i hnot
    exact ExtInvariant_append s nm (round2 v) hs hnot

theorem extractLoop_inv (ccol pcol : Nat) (conv : Bool) :
    ∀ (rows : List Row) (s : ExtState), ExtInvariant s →
      ExtInvariant (extractLoop ccol pcol conv rows s) := by
  intro rows
  induction rows with
  | nil =>
    intro s hs
    exact hs
  | cons row rest ih =>
    intro s hs
    rw [extractLoop]
    split
    · exact ih _ ⟨hs.1, hs.2⟩
    split
    · exact hs
    split
    · exact ih _ hs
    · exact ih _ (processRow_inv ccol pcol conv s row hs)

/-- C7: the extraction loop preserves the deduplication invariant from any
invariant state, so every accepted holdings list has pairwise-distinct
case-insensitive company names; a merge rewrites the first (unique) holding
with the matching lowercased name in place — adding the new percentage and
rounding to 2 decimals — never changing any company name or position; and
on the concrete merge grid two Tata Motors rows with 2.00 and 1.50 yield a
single holding with percentOfNAV 3.50 in first position. -/
theorem c7_dedup_merge :
    (∀ ccol pcol conv rows s, ExtInvariant s →
      ExtInvariant (extractLoop ccol pcol conv rows s)) ∧
    (∀ df hs, find_holdings_in_dataframe df = some hs →
      (hs.map (fun h => toLowerL h.company)).Nodup) ∧
    (∀ l1 (h : Holding) l2 nl v, (∀ h2 ∈ l1, toLowerL h2.company ≠ nl) →
      toLowerL h.company = nl →
      mergeInto (l1 ++ h :: l2) nl v =
        l1 ++ { h with percentOfNAV := round2 (h.percentOfNAV + v) } :: l2) ∧
    (∀ l nl v, (mergeInto l nl v).map Holding.company = l.map Holding.company) ∧
    find_holdings_in_dataframe gridMerge =
      some [⟨strL "Tata Motors Ltd.", mkRat 7 2, none, none⟩, ⟨strL "A1 Corp", 6, none, none⟩,
        ⟨strL "B1 Corp", 7, none, none⟩, ⟨strL "C1 Corp", 8, none, none⟩,
        ⟨strL "D1 Corp", 9, none, none⟩] := by
  refine ⟨extractLoop_inv, ?_, ?_, mergeInto_map_company, by decide⟩
  · intro df hs hfind
    rw [find_holdings_in_dataframe] at hfind
    split at hfind
    · exact absurd hfind (by simp)
    · rename_i h ccol pcol hhdr
      split at hfind
      · cases Option.some.inj hfind
        exact (extractLoop_inv ccol pcol _ _ ⟨[], [], false⟩
          ⟨List.nodup_nil, fun nl => by simp⟩).1
      · exact absurd hfind (by simp)
  · intro l1 h l2 nl v hl1 hh
    induction l1 with
    | nil =>
      simp only [List.nil_append, mergeInto, if_pos hh, qAdd_eq_add]
    | cons a t ih =>
      have ha : toLowerL a.company ≠ nl := hl1 a (by simp)
      simp only [List.cons_append, mergeInto, if_neg ha]
      exact congrArg (fun x => a :: x) (ih (fun h2 hh2 => hl1 h2 (by simp [hh2])))

/-- C7 witness: the invariant holds after running the extraction loop on the
merge grid's rows from the empty initial state. -/
theorem c7_witness :
    ExtInvariant (extractLoop 0 1 false (gridMerge.drop 1) ⟨[], [], false⟩) :=
  c7_dedup_merge.1 0 1 false (gridMerge.drop 1) ⟨[], [], false⟩
    ⟨List.nodup_nil, fun nl => by simp⟩

/-! ## C8: acceptance threshold and sheet loop -/

/-- C8: a sheet-level extraction succeeds exactly with at least 5 surviving
holdings (4 or fewer give the no-result value), and the caller keeps the
first sheet whose extraction is accepted — skipping empty and rejected
sheets — rejecting the whole file when no sheet qualifies. -/
theorem c8_acceptance :
    (∀ df hs, find_holdings_in_dataframe df = some hs → 5 ≤ hs.length) ∧
    (∀ df h ccol pcol, find_header df = some (h, ccol, pcol) →
      (extractLoop ccol pcol (detectFormat (df.drop (h + 1)) pcol) (df.drop (h + 1))
        ⟨[], [], false⟩).holdings.length ≤ 4 →
      find_holdings_in_dataframe df = none) ∧
    (∀ pre df post hs, (∀ d ∈ pre, d.isEmpty = true ∨ find_holdings_in_dataframe d = none) →
      df.isEmpty = false → find_holdings_in_dataframe df = some hs →
      firstHoldings (pre ++ df :: post) = some hs) ∧
    (∀ sheets, (∀ d ∈ sheets, d.isEmpty = true ∨ find_holdings_in_dataframe d = none) →
      firstHoldings sheets = none) := by
  have hlen : ∀ df hs, find_holdings_in_dataframe df = some hs → 5 ≤ hs.length := by
    intro df hs hfind
    rw [find_holdings_in_dataframe] at hfind
    split at hfind
    · exact absurd hfind (by simp)
    · split at hfind
      · rename_i hge
        cases Option.some.inj hfind
        exact hge
      · exact absurd hfind (by simp)
  refine ⟨hlen, ?_, ?_, ?_⟩
  · intro df h ccol pcol hhdr hle
    simp only [find_holdings_in_dataframe, hhdr]
    rw [if_neg (by omega)]
  · intro pre
    induction pre with
    | nil =>
      intro df post hs hpre hdf hfind
      rw [List.nil_append, firstHoldings]
      simp only [hdf, Bool.false_eq_true, if_false, hfind]
      rw [if_pos (hlen df hs hfind)]
    | cons d pre2 ih =>
      intro df post hs hpre hdf hfind
      have hd := hpre d (by simp)
      have hrest := ih df post hs (fun x hx => hpre x (by simp [hx])) hdf hfind
      rw [List.cons_append, firstHoldings]
      rcases hd with hd | hd
      · simp only [hd, if_true]
        exact hrest
      · by_cases hemp : d.isEmpty = true
        · simp only [hemp, if_true]
          exact hrest
        · simp only [hemp, Bool.false_eq_true, if_false, hd]
          exact hrest
  · intro sheets hall
    induction sheets with
    | nil => rfl
    | cons d rest ih =>
      have hd := hall d (by simp)
      have hrest := ih (fun x hx => hall x (by simp [hx]))
      rw [firstHoldings]
      rcases hd with hd | hd
      · simp only [hd, if_true]
        exact hrest
      · by_cases hemp : d.isEmpty = true
        · simp only [hemp, if_true]
          exact hrest
        · simp only [hemp, Bool.false_eq_true, if_false, hd]
          exact hrest

/-- C8 witness: the caller skips an empty first sheet and keeps the second
sheet's accepted holdings. -/
theorem c8_witness :
    firstHoldings [[], gridFive] =
      some [⟨strL "AAA Co", 2, none, none⟩, ⟨strL "BBB Co", 3, none, none⟩,
        ⟨strL "CCC Co", 4, none, none⟩, ⟨strL "DDD Co", 6, none, none⟩,
        ⟨strL "EEE Co", 7, none, none⟩] :=
  c8_acceptance.2.2.1 [[]] gridFive []
    [⟨strL "AAA Co", 2, none, none⟩, ⟨strL "BBB Co", 3, none, none⟩,
     ⟨strL "CCC Co", 4, none, none⟩, ⟨strL "DDD Co", 6, none, none⟩,
     ⟨strL "EEE Co", 7, none, none⟩]
    (by decide) (by decide) (by decide)

/-! ## C9: snapshot postconditions -/

theorem insertDesc_mem (h : Holding) : ∀ (l : List Holding) (y : Holding),
    y ∈ insertDesc h l ↔ y = h ∨ y ∈ l := by
  intro l
  induction l with
  | nil =>
    intro y
    simp [insertDesc]
  | cons x xs ih =>
    intro y
    rw [insertDesc]
    by_cases hc : x.percentOfNAV ≤ h.percentOfNAV
    · rw [if_pos hc]
      simp [List.mem_cons]
    · rw [if_neg hc]
      simp only [List.mem_cons, ih]
      tauto

theorem insertDesc_sorted (h : Holding) : ∀ (l : List Holding),
    l.Pairwise (fun a b => b.percentOfNAV ≤ a.percentOfNAV) →
    (insertDesc h l).Pairwise (fun a b => b.percentOfNAV ≤ a.percentOfNAV) := by
  intro l
  induction l with
  | nil =>
    intro _
    simp [insertDesc]
  | cons x xs ih =>
    intro hp
    obtain ⟨hx, hxs⟩ := List.pairwise_cons.mp hp
    rw [insertDesc]
    by_cases hc : x.percentOfNAV ≤ h.percentOfNAV
    · rw [if_pos hc]
      refine List.pairwise_cons.mpr ⟨?_, hp⟩
      intro y hy
      rcases List.mem_cons.mp hy with h1 | h2
      · subst h1
        exact hc
      · exact le_trans (hx y h2) hc
    · rw [if_neg hc]
      refine List.pairwise_cons.mpr ⟨?_, ih hxs⟩
      intro y hy
      rcases (insertDesc_mem h xs y).mp hy with h1 | h2
      · subst h1
        exact le_of_not_le hc
      · exact hx y h2

theorem sortDesc_sorted : ∀ (l : List Holding),
    (sortDesc l).Pairwise (fun a b => b.percentOfNAV ≤ a.percentOfNAV) := by
  intro l
  induction l with
  | nil => simp [sortDesc]
  | cons x xs ih => exact insertDesc_sorted x (sortDesc xs) ih

theorem insertDesc_filter (h : Holding) (q : ℚ) : ∀ (l : List Holding),
    (insertDesc h l).filter (fun x => decide (x.percentOfNAV = q)) =
      if h.percentOfNAV = q then
        h :: l.filter (fun x => decide (x.percentOfNAV = q))
      else l.filter (fun x => decide (x.percentOfNAV = q)) := by
  intro l
  induction l with
  | nil =>
    rw [insertDesc]
    by_cases hq : h.percentOfNAV = q
    · simp [List.filter_cons, hq]
    · simp [List.filter_cons, hq]
  | cons x xs ih =>
    rw [insertDesc]
    by_cases hc : x.percentOfNAV ≤ h.percentOfNAV
    · rw [if_pos hc]
      by_cases hq : h.percentOfNAV = q
      · simp [List.filter_cons, hq]
      · simp [List.filter_cons, hq]
    · rw [if_neg hc]
      by_cases hxq : x.percentOfNAV = q
      · by_cases hq : h.percentOfNAV = q
        · exact absurd (le_of_eq (hxq.trans hq.symm)) hc
        · simp [List.filter_cons, hxq, hq, ih]
      · by_cases hq : h.percentOfNAV = q <;> simp [List.filter_cons, hxq, hq, ih]

theorem sortDesc_filter (q : ℚ) : ∀ (l : List Holding),
    (sortDesc l).filter (fun x => decide (x.percentOfNAV = q)) =
      l.filter (fun x => decide (x.percentOfNAV = q)) := by
  intro l
  induction l with
  | nil => rfl
  | cons x xs ih =>
    rw [sortDesc, insertDesc_filter]
    by_cases hq : x.percentOfNAV = q
    · simp [List.filter_cons, hq, ih]
    · simp [List.filter_cons, hq, ih]

/-- C9: every assembled snapshot's holdings list is sorted descending by
percentOfNAV (adjacent entries are ordered), `holdingsCount` equals the
length of the list, and the sort is the stable descending sort of the
accepted extraction result — for every key, the entries carrying that key
keep their relative extraction order. -/
theorem c9_snapshot :
    ∀ fundName month year ts sheets snap,
      process_excel_file fundName month year ts sheets = some snap →
      snap.holdings.Pairwise (fun a b => b.percentOfNAV ≤ a.percentOfNAV) ∧
      (∀ i (hi : i + 1 < snap.holdings.length),
        (snap.holdings.get ⟨i + 1, hi⟩).percentOfNAV ≤
          (snap.holdings.get ⟨i, by omega⟩).percentOfNAV) ∧
      snap.holdingsCount = snap.holdings.length ∧
      ∃ hs, firstHoldings sheets = some hs ∧ snap.holdings = sortDesc hs ∧
        ∀ q, snap.holdings.filter (fun h => decide (h.percentOfNAV = q)) =
          hs.filter (fun h => decide (h.percentOfNAV = q)) := by
  intro fundName month year ts sheets snap hproc
  rw [process_excel_file] at hproc
  split at hproc
  · exact absurd hproc (by simp)
  · rename_i hs hfirst
    cases Option.some.inj hproc
    refine ⟨sortDesc_sorted hs, ?_, rfl, hs, hfirst, rfl, fun q => sortDesc_filter q hs⟩
    intro i hi
    have hi2 : i + 1 < (sortDesc hs).length := hi
    have hp := sortDesc_sorted hs
    rw [List.pairwise_iff_getElem] at hp
    simp only [List.get_eq_getElem]
    exact hp i (i + 1) (by omega) (by omega) (by omega)

/-- C9 witness: the snapshot assembled from the unsorted grid has
`holdingsCount` equal to its holdings length (and is sorted descending). -/
theorem c9_witness : snapUnsorted.holdingsCount = snapUnsorted.holdings.length :=
  (c9_snapshot (strL "F") (strL "May") 2024 (strL "t") [gridUnsorted] snapUnsorted
    (by decide)).2.2.1
